import Mathlib

/-!
Verification of the saturation-core clause containers of the Vampire
repository: a shallow embedding of `Saturation/ClauseContainer.cpp`
(`UnprocessedClauseContainer`, `ActiveClauseContainer::onLimitsUpdated`) and
`Saturation/PredicateSplitPassiveClauseContainer.cpp`, with theorems checking
the specification's statements about them.

Machine integers of the C++ are modelled as `Nat` (the quantities involved —
ages, weights, balances, ratios — are non-negative and the code paths under
study perform no overflowing arithmetic); C++ `float` scores (niceness,
cutoffs) are modelled exactly as `Rat`, the niceness thresholds being exact
small-integer comparisons in the source.  Container events are recorded in an
explicit trace (newest first).  The inner `AWPassiveClauseContainer` queues of
the predicate-split container are not part of the sources; where their
behaviour is needed it is modelled from the spec (see the doc comments).
-/

namespace VampireSpec

/-- A clause as the container code sees it: an identity (standing for the C++
pointer), `age`, the list of its literal weights (`weight()` is their sum, per
the spec invariant "`weight` equals Σ symbol counts of literals"), the count
`selected` of selected literals at the front, the effective weight
(`getEffectiveWeight`, whose computation lives outside the given sources and
is therefore kept abstract as a field), and the inference counters
`th_ancestors` / `all_ancestors`. -/
structure Clause where
  id : Nat
  age : Nat
  litWeights : List Nat
  selCnt : Nat
  effWeight : Nat
  thAnc : Nat
  allAnc : Nat
deriving DecidableEq, Repr, Inhabited

/-- `Clause::weight()`: cached sum of the literal weights. -/
def Clause.weight (c : Clause) : Nat := c.litWeights.sum

/-- The maximum weight among the selected literals of `c`, as computed by the
loop in `ActiveClauseContainer::onLimitsUpdated` (`maxSelWeight`), starting
from `0`. -/
def Clause.maxSelWeight (c : Clause) : Nat :=
  (c.litWeights.take c.selCnt).foldl max 0

/-- Container events, as fired by `addedEvent`, `removedEvent` and
`selectedEvent`. -/
inductive ClEvent where
  | added (c : Clause)
  | removed (c : Clause)
  | selected (c : Clause)
deriving DecidableEq, Repr

/-! ## Active container: the LRS discard pass
Embedding of `ActiveClauseContainer::onLimitsUpdated`
(`src/Saturation/ClauseContainer.cpp`, lines 135–203).  The generating
literal index enumeration `gis->getAll()` is modelled as the list of clauses
it yields (with possible repetitions, deduplicated by the `checked` set of
clause identities, which stands for the C++ `DHSet<Clause*>` of pointers). -/

/-- The removal decision of `onLimitsUpdated` for a clause that has already
passed the `age() < ageLimit` test: if `age > ageLimit`, remove iff the
effective weight exceeds `weightLimit`; otherwise (`age == ageLimit`), remove
iff `weight() - maxSelWeight >= weightLimit`.  The C++ subtraction is carried
out in unsigned arithmetic; since `maxSelWeight` is the maximum of a sublist
of the summands of `weight()` it never exceeds it, so `Nat` subtraction is
faithful. -/
def shouldRemove (ageLimit weightLimit : Nat) (c : Clause) : Bool :=
  if ageLimit < c.age then decide (weightLimit < c.effWeight)
  else decide (weightLimit ≤ c.weight - c.maxSelWeight)

/-- First phase of the discard pass: walk the index enumeration, skip clauses
below the age limit or already checked, and push the clauses to be removed on
the `toRemove` stack (`Stack<Clause*>`, top of stack at the head). -/
def lrsCollect (aL wL : Nat) : List Clause → List Nat → List Clause → List Clause
  | [], _, stack => stack
  | c :: rest, checked, stack =>
    if c.age < aL || checked.contains c.id then lrsCollect aL wL rest checked stack
    else lrsCollect aL wL rest (c.id :: checked)
      (if shouldRemove aL wL c then c :: stack else stack)

/-- The chronological order in which the discard pass collects clauses for
removal (first collected first). -/
def lrsCollectOrder (aL wL : Nat) : List Clause → List Nat → List Clause
  | [], _ => []
  | c :: rest, checked =>
    if c.age < aL || checked.contains c.id then lrsCollectOrder aL wL rest checked
    else (if shouldRemove aL wL c then [c] else []) ++
      lrsCollectOrder aL wL rest (c.id :: checked)

/-- Second phase: pop the `toRemove` stack, each pop calling `remove`, which
fires a `removed` event. -/
def lrsEmit : List Clause → List ClEvent
  | [] => []
  | c :: rest => ClEvent.removed c :: lrsEmit rest

/-- The clauses removed by one TIGHTENED discard pass, in the order the
removals (and their `removed` events) happen. -/
def lrsRemoved (aL wL : Nat) (gis : List Clause) : List Clause :=
  lrsCollect aL wL gis [] []

/-- The event trace of one TIGHTENED discard pass. -/
def lrsPassEvents (aL wL : Nat) (gis : List Clause) : List ClEvent :=
  lrsEmit (lrsRemoved aL wL gis)

/-- The maximum selected-literal weight never exceeds the clause weight, so
the unsigned C++ subtraction `weight() - maxSelWeight` agrees with `Nat`
subtraction. -/
lemma Clause.maxSelWeight_le_weight (c : Clause) : c.maxSelWeight ≤ c.weight := by
  have haux : ∀ (l : List Nat) (a : Nat), l.foldl max a ≤ a + l.sum := by
    intro l
    induction l with
    | nil => intro a; simp
    | cons x xs ih =>
      intro a
      have h1 := ih (max a x)
      have h2 : max a x ≤ a + x := by omega
      calc (x :: xs).foldl max a = xs.foldl max (max a x) := by simp [List.foldl]
        _ ≤ max a x + xs.sum := h1
        _ ≤ a + (x :: xs).sum := by simp [List.sum_cons]; omega
  have h1 : (c.litWeights.take c.selCnt).foldl max 0 ≤ 0 + (c.litWeights.take c.selCnt).sum :=
    haux _ 0
  have h2 : (c.litWeights.take c.selCnt).sum ≤ c.litWeights.sum :=
    List.Sublist.sum_le_sum (List.take_sublist _ _) (by intro a _; exact Nat.zero_le a)
  unfold Clause.maxSelWeight Clause.weight
  omega

/-- `List.contains` agrees with membership (over decidable equality). -/
lemma contains_iff_mem {l : List Nat} {a : Nat} : l.contains a = true ↔ a ∈ l := by
  simp [List.contains]

/-- Membership in the result of the collection phase: a clause ends up on the
`toRemove` stack iff it was already there, or it occurs in the walked
enumeration, was not yet checked, has age at least the age limit and
satisfies the removal predicate.  The hypothesis states that clause
identities determine clauses in the enumeration (in the C++, `checked` holds
pointers, and a pointer determines the clause). -/
lemma mem_lrsCollect (aL wL : Nat) (c : Clause) :
    ∀ (l : List Clause) (checked : List Nat) (stack : List Clause),
    (∀ a ∈ l, ∀ b ∈ l, a.id = b.id → a = b) →
    (c ∈ lrsCollect aL wL l checked stack ↔
      c ∈ stack ∨ (c ∈ l ∧ c.id ∉ checked ∧ aL ≤ c.age ∧ shouldRemove aL wL c = true)) := by
  intro l
  induction l with
  | nil => intro checked stack _; simp [lrsCollect]
  | cons d rest ih =>
    intro checked stack hinj
    have hinj' : ∀ a ∈ rest, ∀ b ∈ rest, a.id = b.id → a = b := by
      intro a ha b hb
      exact hinj a (List.mem_cons_of_mem _ ha) b (List.mem_cons_of_mem _ hb)
    rw [lrsCollect]
    by_cases hskip : d.age < aL || checked.contains d.id
    · rw [if_pos hskip, ih checked stack hinj']
      have hskip' : d.age < aL ∨ d.id ∈ checked := by
        rcases Bool.or_eq_true _ _ |>.mp hskip with h | h
        · exact Or.inl (by exact_mod_cast of_decide_eq_true h)
        · exact Or.inr (contains_iff_mem.mp h)
      constructor
      · rintro (h | ⟨hmem, hchk, hage, hsr⟩)
        · exact Or.inl h
        · exact Or.inr ⟨List.mem_cons_of_mem _ hmem, hchk, hage, hsr⟩
      · rintro (h | ⟨hmem, hchk, hage, hsr⟩)
        · exact Or.inl h
        · rcases List.mem_cons.mp hmem with rfl | hmem'
          · rcases hskip' with h | h
            · omega
            · exact absurd h hchk
          · exact Or.inr ⟨hmem', hchk, hage, hsr⟩
    · rw [if_neg hskip]
      have hskip' : ¬ d.age < aL ∧ d.id ∉ checked := by
        rw [Bool.or_eq_true, not_or] at hskip
        refine ⟨?_, ?_⟩
        · intro h; exact hskip.1 (by exact_mod_cast decide_eq_true h)
        · intro h; exact hskip.2 (contains_iff_mem.mpr h)
      rw [ih (d.id :: checked) _ hinj']
      by_cases hcd : c = d
      · subst hcd
        have hnotrest : ¬ (c ∈ rest ∧ c.id ∉ c.id :: checked ∧ aL ≤ c.age ∧
            shouldRemove aL wL c = true) := by
          rintro ⟨_, hchk, _, _⟩
          exact hchk (List.mem_cons_self _ _)
        by_cases hsr : shouldRemove aL wL c = true
        · rw [if_pos hsr]
          constructor
          · intro _
            exact Or.inr ⟨List.mem_cons_self _ _, hskip'.2, by omega, hsr⟩
          · intro _
            exact Or.inl (List.mem_cons_self _ _)
        · rw [if_neg hsr]
          constructor
          · rintro (h | h)
            · exact Or.inl h
            · exact absurd h hnotrest
          · rintro (h | ⟨_, _, _, hsr'⟩)
            · exact Or.inl h
            · exact absurd hsr' hsr
      · have hid : c ∈ rest → c.id ≠ d.id := by
          intro hmem heq
          exact hcd (hinj c (List.mem_cons_of_mem _ hmem) d (List.mem_cons_self _ _) heq)
        constructor
        · rintro (h | ⟨hmem, hchk, hage, hsr⟩)
          · by_cases hsr' : shouldRemove aL wL d = true
            · rw [if_pos hsr'] at h
              rcases List.mem_cons.mp h with rfl | h'
              · exact absurd rfl hcd
              · exact Or.inl h'
            · rw [if_neg hsr'] at h
              exact Or.inl h
          · refine Or.inr ⟨List.mem_cons_of_mem _ hmem, ?_, hage, hsr⟩
            intro hc
            exact hchk (List.mem_cons_of_mem _ hc)
        · rintro (h | ⟨hmem, hchk, hage, hsr⟩)
          · refine Or.inl ?_
            by_cases hsr' : shouldRemove aL wL d = true
            · rw [if_pos hsr']; exact List.mem_cons_of_mem _ h
            · rw [if_neg hsr']; exact h
          · rcases List.mem_cons.mp hmem with rfl | hmem'
            · exact absurd rfl hcd
            · refine Or.inr ⟨hmem', ?_, hage, hsr⟩
              intro hc
              rcases List.mem_cons.mp hc with h | h
              · exact hid hmem' h
              · exact hchk h

/-- C1: On a TIGHTENED limits update, the Active container's discard pass
removes exactly the clauses satisfying the stated predicate: a checked clause
with `age > ageLimit` is removed iff its effective weight exceeds the weight
limit, one with `age == ageLimit` is removed iff `weight - maxSelWeight` is
at least the weight limit, and one with `age < ageLimit` is kept. -/
theorem active_discard_exact (aL wL : Nat) (gis : List Clause)
    (hinj : ∀ a ∈ gis, ∀ b ∈ gis, a.id = b.id → a = b) (c : Clause) :
    (c ∈ lrsRemoved aL wL gis ↔
      c ∈ gis ∧ ((aL < c.age ∧ wL < c.effWeight) ∨
        (c.age = aL ∧ wL ≤ c.weight - c.maxSelWeight))) ∧
    (c.age < aL → c ∉ lrsRemoved aL wL gis) := by
  have hmem := mem_lrsCollect aL wL c gis [] [] hinj
  rw [lrsRemoved]
  constructor
  · rw [hmem]
    simp only [List.not_mem_nil, false_or, List.mem_nil_iff]
    constructor
    · rintro ⟨hmem', -, hage, hsr⟩
      refine ⟨hmem', ?_⟩
      unfold shouldRemove at hsr
      by_cases hlt : aL < c.age
      · rw [if_pos hlt] at hsr
        exact Or.inl ⟨hlt, of_decide_eq_true hsr⟩
      · rw [if_neg hlt] at hsr
        exact Or.inr ⟨by omega, of_decide_eq_true hsr⟩
    · rintro ⟨hmem', hcase⟩
      refine ⟨hmem', by simp, ?_, ?_⟩
      · rcases hcase with ⟨h, -⟩ | ⟨h, -⟩ <;> omega
      · unfold shouldRemove
        rcases hcase with ⟨h1, h2⟩ | ⟨h1, h2⟩
        · rw [if_pos h1]; exact decide_eq_true h2
        · rw [if_neg (by omega)]; exact decide_eq_true h2
  · intro hage hcontra
    rw [hmem] at hcontra
    rcases hcontra with h | ⟨-, -, h, -⟩
    · exact absurd h (List.not_mem_nil c)
    · omega

/-- The collection stack equals the reverse of the chronological collection
order, prepended to its initial content. -/
lemma lrsCollect_eq_reverse_order (aL wL : Nat) :
    ∀ (l : List Clause) (checked : List Nat) (stack : List Clause),
    lrsCollect aL wL l checked stack =
      (lrsCollectOrder aL wL l checked).reverse ++ stack := by
  intro l
  induction l with
  | nil => intro checked stack; simp [lrsCollect, lrsCollectOrder]
  | cons d rest ih =>
    intro checked stack
    rw [lrsCollect, lrsCollectOrder]
    by_cases hskip : d.age < aL || checked.contains d.id
    · rw [if_pos hskip, if_pos hskip, ih]
    · rw [if_neg hskip, if_neg hskip, ih]
      by_cases hsr : shouldRemove aL wL d = true
      · rw [if_pos hsr, if_pos hsr]
        simp [List.append_assoc]
      · rw [if_neg hsr, if_neg hsr]
        simp

/-- Emission is exactly the mapping of `removed` events over the stack. -/
lemma lrsEmit_eq_map : ∀ l : List Clause, lrsEmit l = l.map ClEvent.removed := by
  intro l
  induction l with
  | nil => rfl
  | cons c rest ih => rw [lrsEmit, ih, List.map_cons]

/-- Every clause collected for removal has an identity not yet checked, and
the collected identities are distinct (the `visited` deduplication works). -/
lemma lrsCollectOrder_nodup (aL wL : Nat) :
    ∀ (l : List Clause) (checked : List Nat),
    ((lrsCollectOrder aL wL l checked).map Clause.id).Nodup ∧
    (∀ a ∈ lrsCollectOrder aL wL l checked, a.id ∉ checked) := by
  intro l
  induction l with
  | nil => intro checked; simp [lrsCollectOrder]
  | cons d rest ih =>
    intro checked
    rw [lrsCollectOrder]
    by_cases hskip : d.age < aL || checked.contains d.id
    · rw [if_pos hskip]; exact ih checked
    · rw [if_neg hskip]
      have hd : d.id ∉ checked := by
        rw [Bool.or_eq_true, not_or] at hskip
        intro h; exact hskip.2 (contains_iff_mem.mpr h)
      rcases ih (d.id :: checked) with ⟨ihnd, ihchk⟩
      by_cases hsr : shouldRemove aL wL d = true
      · rw [if_pos hsr]
        refine ⟨?_, ?_⟩
        · simp only [List.cons_append, List.nil_append, List.map_cons, List.nodup_cons]
          refine ⟨?_, ihnd⟩
          intro hcontra
          rcases List.mem_map.mp hcontra with ⟨a, ha, haid⟩
          exact ihchk a ha (haid ▸ List.mem_cons_self _ _)
        · intro a ha
          rcases List.mem_cons.mp (by simpa using ha) with rfl | ha'
          · exact hd
          · intro hc
            exact ihchk a ha' (List.mem_cons_of_mem _ hc)
      · rw [if_neg hsr]
        simp only [List.nil_append]
        refine ⟨ihnd, ?_⟩
        intro a ha hc
        exact ihchk a ha (List.mem_cons_of_mem _ hc)

/-- C7: during one TIGHTENED discard pass removals are batched: the pass's
event trace consists exactly of the `removed` events of the collected clauses,
issued in reverse of the chronological collection order, and the collection
itself is deduplicated (distinct clause identities). -/
theorem active_discard_batched (aL wL : Nat) (gis : List Clause) :
    lrsPassEvents aL wL gis =
      ((lrsCollectOrder aL wL gis []).reverse).map ClEvent.removed ∧
    ((lrsCollectOrder aL wL gis []).map Clause.id).Nodup := by
  constructor
  · rw [lrsPassEvents, lrsRemoved, lrsCollect_eq_reverse_order, List.append_nil,
      lrsEmit_eq_map]
  · exact (lrsCollectOrder_nodup aL wL gis []).1

/-! ## Unprocessed container
Embedding of `UnprocessedClauseContainer` (`src/Saturation/ClauseContainer.cpp`,
lines 92–107): the backing `Stack<Clause*>` is a list whose back is its last
element; `add` is `push_back` followed by firing `added`, `pop` is `pop_back`
followed by firing `selected`.  Popping an empty container is the *Empty*
failure (`pop_back` on an empty stack), modelled as `none`. -/

structure UnprocessedState where
  data : List Clause
  events : List ClEvent
deriving DecidableEq, Repr

/-- `UnprocessedClauseContainer::add`: push at the back, fire `added`. -/
def uAdd (c : Clause) (s : UnprocessedState) : UnprocessedState :=
  { data := s.data ++ [c], events := ClEvent.added c :: s.events }

/-- `UnprocessedClauseContainer::pop`: pop from the back, fire `selected`. -/
def uPop (s : UnprocessedState) : Option (Clause × UnprocessedState) :=
  match s.data.getLast? with
  | none => none
  | some c =>
    some (c, { data := s.data.dropLast, events := ClEvent.selected c :: s.events })

/-- The operations an external caller performs on the container. -/
inductive UOp where
  | add (c : Clause)
  | pop
deriving DecidableEq, Repr

/-- One caller operation (a `pop` on an empty container fails in the C++ and
is modelled as leaving the state unchanged; valid runs never reach it). -/
def uStep (s : UnprocessedState) : UOp → UnprocessedState
  | .add c => uAdd c s
  | .pop =>
    match uPop s with
    | none => s
    | some (_, s') => s'

/-- Run a sequence of caller operations from the empty container. -/
def uRun (ops : List UOp) : UnprocessedState :=
  ops.foldl uStep ⟨[], []⟩

/-- The clauses a sequence of operations adds, in order of addition. -/
def addsOf : List UOp → List Clause
  | [] => []
  | .add c :: rest => c :: addsOf rest
  | .pop :: rest => addsOf rest

/-- The backing stack of the Unprocessed container is always an
order-preserving sublist of the clauses added so far. -/
lemma uRun_data_sublist :
    ∀ (ops : List UOp) (s : UnprocessedState),
    (ops.foldl uStep s).data.Sublist (s.data ++ addsOf ops) := by
  intro ops
  induction ops with
  | nil => intro s; simp
  | cons op rest ih =>
    intro s
    rw [List.foldl_cons]
    cases op with
    | add c =>
      have := ih (uStep s (.add c))
      rw [addsOf]
      simpa [uStep, uAdd, List.append_assoc] using this
    | pop =>
      have h1 := ih (uStep s .pop)
      have h2 : (uStep s .pop).data.Sublist s.data := by
        rw [uStep]
        cases hdata : s.data.getLast? with
        | none => simp [uPop, hdata]
        | some c => simp [uPop, hdata, List.dropLast_sublist]
      rw [addsOf]
      exact h1.trans (h2.append_right _)

/-- C8: from any reachable Unprocessed state with a non-empty backing stack,
`pop()` returns the most recently added clause that has not yet been popped —
the last element of the stack, the stack being an order-preserving sublist of
the clauses added so far — removes it, and fires a `selected` event for it. -/
theorem unprocessed_pop_last (ops : List UOp) :
    (uRun ops).data.Sublist (addsOf ops) ∧
    (∀ h : (uRun ops).data ≠ [],
      uPop (uRun ops) = some ((uRun ops).data.getLast h,
        { data := (uRun ops).data.dropLast,
          events := ClEvent.selected ((uRun ops).data.getLast h) ::
            (uRun ops).events })) := by
  constructor
  · simpa using uRun_data_sublist ops ⟨[], []⟩
  · intro h
    rw [uPop, List.getLast?_eq_getLast _ h]

/-! ## Predicate-split passive container: construction
Embedding of `PredicateSplitPassiveClauseContainer`'s constructor
(`src/Saturation/PredicateSplitPassiveClauseContainer.cpp`, lines 34–107):
the helper `computeGCD`/`computeLCM` functions, the sanity checks on the
parsed ratio and cutoff lists, and the computation of the internal inverse
ratios.  The comma-separated option strings are taken after parsing (`stoi`
yields the `Int` ratios, `stof` the cutoff scores, modelled as `Rat`); all
arithmetic is on validated positive values, so `Nat` models the C++ `int`. -/

/-- `computeGCD` of the source: Euclid's algorithm. -/
def computeGCD (a b : Nat) : Nat :=
  if h : a = 0 then b else computeGCD (b % a) a
termination_by a
decreasing_by exact Nat.mod_lt _ (Nat.pos_of_ne_zero h)

/-- `computeLCM` of the source. -/
def computeLCM (a b : Nat) : Nat := a * b / computeGCD a b

lemma computeGCD_eq_gcd (a b : Nat) : computeGCD a b = Nat.gcd a b := by
  induction a, b using Nat.gcd.induction with
  | H0 n => rw [computeGCD, Nat.gcd_zero_left]; simp
  | H1 m n hm ih =>
    rw [computeGCD, dif_neg (by omega), ih]
    exact (Nat.gcd_rec m n).symm

lemma computeLCM_eq_lcm (a b : Nat) : computeLCM a b = Nat.lcm a b := by
  rw [computeLCM, computeGCD_eq_gcd, Nat.lcm]

/-- The state the constructor establishes: the internal (inverse) ratios and
the cutoffs.  One inner queue, one balance (initially `0`) and one internal
ratio are created per entry. -/
structure PSConfig where
  ratios : List Nat
  cutoffs : List Rat
deriving DecidableEq, Repr

/-- The `i > 0 && cutoff <= _cutoffs[i-1]` test of the constructor loop:
`prev` holds the previous cutoff once the loop has passed the first entry. -/
def cutoffNotIncreasing : Option Rat → Rat → Bool
  | none, _ => false
  | some p, c => decide (c ≤ p)

/-- The per-entry sanity-check loop of the constructor: each ratio must be
positive, each cutoff must lie in `[0,1]`, and each cutoff must exceed the
previous one (`prev`).  Checks are performed in source order and the first
violation produces the corresponding `USER_ERROR`. -/
def checkEntries : List Int → List Rat → Option Rat → Except String Unit
  | [], _, _ => Except.ok ()
  | _ :: _, [], _ => Except.ok ()
  | r :: rs, c :: cs, prev =>
    if r ≤ 0 then
      Except.error "Each ratio supplied by option -sqr needs to be a positive integer"
    else if ¬ (0 ≤ c ∧ c ≤ 1) then
      Except.error "Each cutoff value supplied by option -sqc needs to be in the interval [0.0,1.0]"
    else if cutoffNotIncreasing prev c then
      Except.error "The cutoff values supplied by option -sqc must be strictly increasing"
    else checkEntries rs cs (some c)

/-- The constructor after option parsing: sanity checks in source order, then
the LCM of the input ratios and the internal inverse ratios
`lcm / inputRatios[i]`, with every balance initialised to zero. -/
def mkContainer (rs : List Int) (cs : List Rat) : Except String PSConfig :=
  if rs.length < 2 then
    Except.error "Wrong usage of option -sqr. Needs to have at least two values"
  else if rs.length ≠ cs.length then
    Except.error "The number of input ratios needs to match the number of cutoffs"
  else
    match checkEntries rs cs none with
    | Except.error e => Except.error e
    | Except.ok _ =>
      if cs.getLast? ≠ some 1 then
        Except.error "The last cutoff value supplied by option -sqc must be 1.0"
      else
        let rsN := rs.map Int.toNat
        let lcmAll := rsN.foldl computeLCM 1
        Except.ok { ratios := rsN.map (fun r => lcmAll / r), cutoffs := cs }

/-- The configuration rules the spec states for the two option lists. -/
def ValidConfig (rs : List Int) (cs : List Rat) : Prop :=
  2 ≤ rs.length ∧ rs.length = cs.length ∧ (∀ r ∈ rs, 0 < r) ∧
  (∀ c ∈ cs, 0 ≤ c ∧ c ≤ 1) ∧ List.Chain' (· < ·) cs ∧ cs.getLast? = some 1

lemma checkEntries_ok_iff :
    ∀ (rs : List Int) (cs : List Rat) (prev : Option Rat), rs.length = cs.length →
    (checkEntries rs cs prev = Except.ok () ↔
      (∀ r ∈ rs, 0 < r) ∧ (∀ c ∈ cs, 0 ≤ c ∧ c ≤ 1) ∧ List.Chain' (· < ·) cs ∧
      (∀ p, prev = some p → ∀ c ∈ cs.head?, p < c)) := by
  intro rs
  induction rs with
  | nil =>
    intro cs prev hlen
    have : cs = [] := List.eq_nil_of_length_eq_zero hlen.symm
    subst this
    simp [checkEntries]
  | cons r rest ih =>
    intro cs prev hlen
    cases cs with
    | nil => simp at hlen
    | cons c cs2 =>
      have hlen2 : rest.length = cs2.length := by simpa using hlen
      rw [checkEntries]
      by_cases hr : r ≤ 0
      · rw [if_pos hr]
        constructor
        · intro h; exact absurd h (by simp)
        · rintro ⟨hpos, -, -, -⟩
          exact absurd (hpos r (List.mem_cons_self _ _)) (by omega)
      · rw [if_neg hr]
        by_cases hc : 0 ≤ c ∧ c ≤ 1
        · rw [if_neg (not_not_intro hc)]
          by_cases hinc : cutoffNotIncreasing prev c = true
          · rw [if_pos hinc]
            have hviol : ∃ p, prev = some p ∧ c ≤ p := by
              cases prev with
              | none => exact absurd hinc (by simp [cutoffNotIncreasing])
              | some p =>
                exact ⟨p, rfl, of_decide_eq_true (by simpa [cutoffNotIncreasing] using hinc)⟩
            constructor
            · intro h; exact absurd h (by simp)
            · rintro ⟨-, -, -, h4⟩
              rcases hviol with ⟨p, rfl, hle⟩
              have := h4 p rfl c (by simp)
              exact absurd this (not_lt.mpr hle)
          · rw [if_neg hinc]
            have hprev : ∀ p, prev = some p → p < c := by
              intro p hp
              subst hp
              by_contra hcon
              exact hinc (by simp [cutoffNotIncreasing]; exact le_of_not_lt hcon)
            rw [ih cs2 (some c) hlen2, List.chain'_cons']
            constructor
            · rintro ⟨h1, h2, h3, h4⟩
              refine ⟨?_, ?_, ⟨?_, h3⟩, ?_⟩
              · intro x hx
                rcases List.mem_cons.mp hx with rfl | hx2
                · omega
                · exact h1 x hx2
              · intro x hx
                rcases List.mem_cons.mp hx with rfl | hx2
                · exact hc
                · exact h2 x hx2
              · intro b hb
                exact h4 c rfl b hb
              · intro p hp x hx
                simp only [List.head?_cons, Option.mem_def, Option.some.injEq] at hx
                subst hx
                exact hprev p hp
            · rintro ⟨h1, h2, ⟨h3a, h3b⟩, -⟩
              refine ⟨?_, ?_, h3b, ?_⟩
              · intro x hx; exact h1 x (List.mem_cons_of_mem _ hx)
              · intro x hx; exact h2 x (List.mem_cons_of_mem _ hx)
              · intro p hp x hx
                obtain rfl : c = p := Option.some.inj hp
                exact h3a x hx
        · rw [if_pos hc]
          constructor
          · intro h; exact absurd h (by simp)
          · rintro ⟨-, hrange, -, -⟩
            exact absurd (hrange c (List.mem_cons_self _ _)) hc

/-- C5: construction of the predicate-split container fails with a `Config`
(`USER_ERROR`) error — before any clause is processed, since the checks run
in the constructor — exactly when the parsed option lists violate the rules:
fewer than two ratios, a ratio count different from the cutoff count, a
non-positive ratio, a cutoff outside `[0,1]`, cutoffs not strictly
increasing, or a last cutoff different from `1.0`. -/
theorem config_validation (rs : List Int) (cs : List Rat) :
    (∃ cfg, mkContainer rs cs = Except.ok cfg) ↔ ValidConfig rs cs := by
  rw [mkContainer, ValidConfig]
  by_cases h2 : rs.length < 2
  · rw [if_pos h2]
    constructor
    · rintro ⟨cfg, hcfg⟩; exact absurd hcfg (by simp)
    · rintro ⟨hlen, -⟩; omega
  · rw [if_neg h2]
    by_cases hlen : rs.length ≠ cs.length
    · rw [if_pos hlen]
      constructor
      · rintro ⟨cfg, hcfg⟩; exact absurd hcfg (by simp)
      · rintro ⟨-, hl, -⟩; exact absurd hl hlen
    · rw [if_neg hlen]
      have hleneq : rs.length = cs.length := not_ne_iff.mp hlen
      have hiff := checkEntries_ok_iff rs cs none hleneq
      cases hchk : checkEntries rs cs none with
      | error e =>
        constructor
        · rintro ⟨cfg, hcfg⟩
          exact absurd hcfg (by simp)
        · rintro ⟨-, -, hpos, hrange, hchain, -⟩
          have : checkEntries rs cs none = Except.ok () :=
            hiff.mpr ⟨hpos, hrange, hchain, by rintro p ⟨⟩⟩
          rw [hchk] at this
          exact absurd this (by simp)
      | ok u =>
        cases u
        have hok := hiff.mp hchk
        by_cases hlast : cs.getLast? ≠ some 1
        · rw [if_pos hlast]
          constructor
          · rintro ⟨cfg, hcfg⟩; exact absurd hcfg (by simp)
          · rintro ⟨-, -, -, -, -, hl⟩; exact absurd hl hlast
        · rw [if_neg hlast]
          constructor
          · rintro -
            exact ⟨by omega, hleneq, hok.1, hok.2.1, hok.2.2.1, not_ne_iff.mp hlast⟩
          · rintro -
            exact ⟨_, rfl⟩

/-! ## Predicate-split passive container: runtime state and operations
Embedding of the runtime part of
`src/Saturation/PredicateSplitPassiveClauseContainer.cpp` (niceness and best
queue, `add`, `remove`, `popSelected`, the simulation operations and the
admission predicates).  The inner `AWPassiveClauseContainer` queues are not
part of the given sources; they are modelled from the spec as priority
containers: each queue is the list of its clauses in its own selection order
(head popped first), `simulationInit` places a cursor over the present
clauses, and the per-queue admission predicates `fulfilsAgeLimit` /
`fulfilsWeightLimit` are kept abstract as boolean functions (`ageAdm` /
`wAdm`), one per queue. -/

structure PSState where
  queues : List (List Clause)
  simRem : List (List Clause)
  ageAdm : List (Clause → Bool)
  wAdm : List (Clause → Bool)
  ratios : List Nat
  cutoffs : List Rat
  balances : List Nat
  simBalances : List Nat
  fadeIn : Bool
  isOutermost : Bool
  events : List ClEvent

/-- `bestQueueHeuristics`' niceness computation: the theory ratio
`th_ancestors / all_ancestors`, coarsened by the fade-in schedule when the
`splitQueueFadeIn` option is set.  The two counters are small integers stored
in C++ floats, so the threshold comparisons are exact and `Rat` models
them faithfully. -/
def computeNiceness (fadeIn : Bool) (th allA : Nat) : Rat :=
  let theoryRatio : Rat := (th : Rat) / (allA : Rat)
  if fadeIn then
    if th ≤ 2 then 0
    else if th = 3 ∧ allA ≤ 6 then 1/2
    else if th = 4 ∧ allA ≤ 5 then 4/5
    else theoryRatio
  else theoryRatio

/-- The niceness of a clause's inference. -/
def clauseNiceness (fadeIn : Bool) (c : Clause) : Rat :=
  computeNiceness fadeIn c.thAnc c.allAnc

/-- The dispatch loop of `bestQueueHeuristics`: the first index whose cutoff
admits the niceness.  The C++ function has no return statement after the
loop; falling through (possible only when the niceness exceeds every cutoff)
is modelled as `none`. -/
def bestQueueLoop : List Rat → Rat → Option Nat
  | [], _ => none
  | c :: cs, n => if n ≤ c then some 0 else (bestQueueLoop cs n).map (· + 1)

/-- `bestQueueHeuristics` as used by the container: under the source's
assertions (`0 ≤ niceness ≤ 1` and `cutoffs.back() == 1`) the loop always
returns; the impossible fall-through is resolved to `cutoffs.length`, which
makes the subsequent `for i in [bestQueue, N)` loops do nothing. -/
def bestQueue (cutoffs : List Rat) (fadeIn : Bool) (c : Clause) : Nat :=
  (bestQueueLoop cutoffs (clauseNiceness fadeIn c)).getD cutoffs.length

/-- `PredicateSplitPassiveClauseContainer::add`: insert the clause into every
queue from its best queue rightward, then (if outermost) fire `added`. -/
def psAdd (c : Clause) (s : PSState) : PSState :=
  { s with
    queues := s.queues.mapIdx
      (fun j q => if bestQueue s.cutoffs s.fadeIn c ≤ j then q ++ [c] else q),
    events := if s.isOutermost then ClEvent.added c :: s.events else s.events }

/-- `PredicateSplitPassiveClauseContainer::remove`: remove the clause from
every queue from its best queue rightward, then (if outermost) fire
`removed`. -/
def psRemove (c : Clause) (s : PSState) : PSState :=
  { s with
    queues := s.queues.mapIdx
      (fun j q => if bestQueue s.cutoffs s.fadeIn c ≤ j then q.erase c else q),
    events := if s.isOutermost then ClEvent.removed c :: s.events else s.events }

/-- `std::min_element` over the balances: the index of the first occurrence
of the minimum. -/
def idxOfMin : List Nat → Nat
  | [] => 0
  | b :: bs =>
    if bs = [] then 0
    else if b ≤ bs.getD (idxOfMin bs) 0 then 0 else idxOfMin bs + 1

/-- Index of the first non-empty queue of a queue list (`none` if all are
empty). -/
def firstNE : List (List Clause) → Option Nat
  | [] => none
  | q :: qs => if q.isEmpty then (firstNE qs).map (· + 1) else some 0

/-- The rightward scan of `popSelected`: the first index `≥ i` of a non-empty
queue. -/
def scanRight (qs : List (List Clause)) (i : Nat) : Option Nat :=
  (firstNE (qs.drop i)).map (i + ·)

/-- The leftward fallback scan of `popSelected`: the greatest index `≤ i` of
a non-empty queue. -/
def scanLeft (qs : List (List Clause)) : Nat → Option Nat
  | 0 => if (qs.getD 0 []).isEmpty then none else some 0
  | i + 1 => if (qs.getD (i + 1) []).isEmpty then scanLeft qs i else some (i + 1)

/-- The queue `popSelected` takes its clause from, starting from the
round-robin choice `q`: scan rightward for a non-empty queue, and only if
that fails scan leftward from `q - 1`.  `none` models the case of an entirely
empty container, in which the C++ (called against its invariant) fails its
assertions. -/
def chooseQueue (qs : List (List Clause)) (q : Nat) : Option Nat :=
  match scanRight qs q with
  | some k => some k
  | none => if q = 0 then none else scanLeft qs (q - 1)

/-- `PredicateSplitPassiveClauseContainer::popSelected`: pick the queue with
the minimal balance, charge it its internal ratio, find the queue to pop from
(rightward, then leftward), pop that queue's head, remove the clause from
every queue and fire `selected`.  Removing the popped clause from all queues
subsumes the inner pop: erasing the head of the popped queue is exactly the
inner `popSelected`'s removal. -/
def psPop (s : PSState) : Option (Clause × PSState) :=
  let q := idxOfMin s.balances
  let balances2 := s.balances.set q (s.balances.getD q 0 + s.ratios.getD q 0)
  match chooseQueue s.queues q with
  | none => none
  | some k =>
    match (s.queues.getD k []).head? with
    | none => none
    | some c =>
      some (c, { s with
        balances := balances2,
        queues := s.queues.map (fun ql => ql.erase c),
        events := ClEvent.selected c :: s.events })

/-- `simulationInit`: copy the real balances into the simulation balances and
initialise every inner queue's simulation cursor over its present clauses. -/
def psSimInit (s : PSState) : PSState :=
  { s with simBalances := s.balances, simRem := s.queues }

/-- `simulationHasNext`: some inner queue's simulation cursor is non-empty. -/
def psSimHasNext (s : PSState) : Bool :=
  s.simRem.any (fun l => !l.isEmpty)

/-- `simulationPopSelected`: the same weighted round-robin over the parallel
simulation balances, advancing only the chosen inner queue's simulation
cursor. -/
def psSimPop (s : PSState) : PSState :=
  let q := idxOfMin s.simBalances
  let simB2 := s.simBalances.set q (s.simBalances.getD q 0 + s.ratios.getD q 0)
  match chooseQueue s.simRem q with
  | none => { s with simBalances := simB2 }
  | some k =>
    { s with
      simBalances := simB2,
      simRem := s.simRem.mapIdx (fun j l => if j = k then l.tail else l) }

/-- `PredicateSplitPassiveClauseContainer::fulfilsAgeLimit`: some queue from
the clause's best queue rightward admits the clause under its own age
limit. -/
def fulfilsAgeLimit (s : PSState) (c : Clause) : Bool :=
  (s.ageAdm.drop (bestQueue s.cutoffs s.fadeIn c)).any (fun p => p c)

/-- `PredicateSplitPassiveClauseContainer::fulfilsWeightLimit`: some queue
from the clause's best queue rightward admits the clause under its own
weight limit. -/
def fulfilsWeightLimit (s : PSState) (c : Clause) : Bool :=
  (s.wAdm.drop (bestQueue s.cutoffs s.fadeIn c)).any (fun p => p c)

/-- C4: with the fade-in option enabled, the niceness used for queue dispatch
is `0.0` when `th_ancestors ≤ 2`, `0.5` when `th_ancestors = 3` and
`all_ancestors ≤ 6`, `0.8` when `th_ancestors = 4` and `all_ancestors ≤ 5`,
and the raw ratio `th_ancestors / all_ancestors` otherwise. -/
theorem fadein_niceness (th allA : Nat) :
    (th ≤ 2 → computeNiceness true th allA = 0) ∧
    (th = 3 → allA ≤ 6 → computeNiceness true th allA = 1/2) ∧
    (th = 4 → allA ≤ 5 → computeNiceness true th allA = 4/5) ∧
    (¬ th ≤ 2 → ¬ (th = 3 ∧ allA ≤ 6) → ¬ (th = 4 ∧ allA ≤ 5) →
      computeNiceness true th allA = (th : Rat) / (allA : Rat)) := by
  refine ⟨?_, ?_, ?_, ?_⟩
  · intro h
    rw [computeNiceness, if_pos rfl, if_pos h]
  · intro h1 h2
    rw [computeNiceness, if_pos rfl, if_neg (by omega), if_pos ⟨h1, h2⟩]
  · intro h1 h2
    rw [computeNiceness, if_pos rfl, if_neg (by omega), if_neg (by omega),
      if_pos ⟨h1, h2⟩]
  · intro h1 h2 h3
    rw [computeNiceness, if_pos rfl, if_neg h1, if_neg h2, if_neg h3]

theorem fadein_niceness_witness :
    computeNiceness true 2 9 = 0 ∧ computeNiceness true 3 5 = 1/2 ∧
    computeNiceness true 4 5 = 4/5 ∧ computeNiceness true 5 10 = (5 : Rat)/10 :=
  ⟨(fadein_niceness 2 9).1 (by decide),
   (fadein_niceness 3 5).2.1 rfl (by decide),
   (fadein_niceness 4 5).2.2.1 rfl (by decide),
   (fadein_niceness 5 10).2.2.2 (by decide) (by decide) (by decide)⟩

/-- One simulation pop never touches the real balances, the real queue
contents or the event trace (it only reads the real queues through the
simulation cursors and writes the simulation fields). -/
lemma psSimPop_frame (s : PSState) :
    (psSimPop s).balances = s.balances ∧ (psSimPop s).queues = s.queues ∧
    (psSimPop s).events = s.events := by
  rw [psSimPop]
  cases h : chooseQueue s.simRem (idxOfMin s.simBalances) with
  | none => exact ⟨rfl, rfl, rfl⟩
  | some k => exact ⟨rfl, rfl, rfl⟩

/-- C6: any simulation run — `simulationInit` followed by any number of
`simulationPopSelected` calls, without `setLimitsFromSimulation` — leaves the
real balances and the real queue contents unchanged and fires no event; the
simulation works only on the parallel simulation balances and cursors. -/
theorem simulation_no_real_effect (s : PSState) (n : Nat) :
    (psSimPop^[n] (psSimInit s)).balances = s.balances ∧
    (psSimPop^[n] (psSimInit s)).queues = s.queues ∧
    (psSimPop^[n] (psSimInit s)).events = s.events := by
  induction n with
  | zero => exact ⟨rfl, rfl, rfl⟩
  | succ m ih =>
    rw [Function.iterate_succ_apply']
    rcases psSimPop_frame (psSimPop^[m] (psSimInit s)) with ⟨h1, h2, h3⟩
    exact ⟨h1.trans ih.1, h2.trans ih.2.1, h3.trans ih.2.2⟩

/-- The `for i in [b, length)` any-loop over a list of predicates, as an
existential over indices. -/
lemma any_drop_iff (L : List (Clause → Bool)) (b : Nat) (c : Clause) :
    ((L.drop b).any (fun p => p c) = true ↔
      ∃ i, b ≤ i ∧ i < L.length ∧ (L.getD i (fun _ => false)) c = true) := by
  rw [List.any_eq_true]
  constructor
  · rintro ⟨p, hp, hpc⟩
    rcases List.mem_iff_getElem.mp hp with ⟨j, hj, hjp⟩
    have hjlen : b + j < L.length := by
      have := List.length_drop b L ▸ hj
      omega
    refine ⟨b + j, by omega, hjlen, ?_⟩
    have hdj : (L.drop b)[j] = L[b + j] := by
      have h1 : (L.drop b)[j]? = L[b + j]? := List.getElem?_drop L b j
      rw [List.getElem?_eq_getElem hj, List.getElem?_eq_getElem hjlen] at h1
      exact Option.some.inj h1
    rw [List.getD_eq_getElem _ _ hjlen, ← hdj, hjp]
    exact hpc
  · rintro ⟨i, hbi, hilen, hic⟩
    have hj : i - b < (L.drop b).length := by
      rw [List.length_drop]; omega
    refine ⟨(L.drop b)[i - b], List.getElem_mem hj, ?_⟩
    have hbi2 : b + (i - b) = i := by omega
    have h1 : (L.drop b)[i - b]? = L[b + (i - b)]? := List.getElem?_drop L b (i - b)
    rw [hbi2, List.getElem?_eq_getElem hj, List.getElem?_eq_getElem hilen] at h1
    rw [Option.some.inj h1]
    rw [List.getD_eq_getElem _ _ hilen] at hic
    exact hic

/-- C9: `fulfilsAgeLimit` (resp. `fulfilsWeightLimit`) holds for a clause iff
at least one queue in the range from the clause's best queue through the last
queue admits it under that queue's own age (resp. weight) limit. -/
theorem limit_fulfilment (s : PSState) (c : Clause) :
    (fulfilsAgeLimit s c = true ↔
      ∃ i, bestQueue s.cutoffs s.fadeIn c ≤ i ∧ i < s.ageAdm.length ∧
        (s.ageAdm.getD i (fun _ => false)) c = true) ∧
    (fulfilsWeightLimit s c = true ↔
      ∃ i, bestQueue s.cutoffs s.fadeIn c ≤ i ∧ i < s.wAdm.length ∧
        (s.wAdm.getD i (fun _ => false)) c = true) :=
  ⟨any_drop_iff s.ageAdm _ c, any_drop_iff s.wAdm _ c⟩

/-- If the niceness is at most `1` and the last cutoff is `1`, the dispatch
loop returns, and it returns the first index whose cutoff admits the
niceness. -/
lemma bestQueueLoop_some_of_le_last :
    ∀ (cutoffs : List Rat) (n : Rat), n ≤ 1 → ∀ h : cutoffs ≠ [],
    cutoffs.getLast h = 1 →
    ∃ i, bestQueueLoop cutoffs n = some i ∧ i < cutoffs.length ∧
      n ≤ cutoffs.getD i 0 ∧ ∀ j, j < i → cutoffs.getD j 0 < n := by
  intro cutoffs
  induction cutoffs with
  | nil => intro n _ h; exact absurd rfl h
  | cons x cs ih =>
    intro n hn h hlast
    by_cases hx : n ≤ x
    · refine ⟨0, ?_, by simp, by simpa using hx, by omega⟩
      rw [bestQueueLoop, if_pos hx]
    · have hcs : cs ≠ [] := by
        intro hnil
        subst hnil
        rw [List.getLast_singleton] at hlast
        exact hx (hlast ▸ hn)
      have hlast' : cs.getLast hcs = 1 := by
        rw [← List.getLast_cons hcs]
        exact hlast
      rcases ih n hn hcs hlast' with ⟨i, hloop, hilen, hile, hjlt⟩
      refine ⟨i + 1, ?_, by simpa using hilen, by simpa using hile, ?_⟩
      · rw [bestQueueLoop, if_neg hx, hloop]
        rfl
      · intro j hj
        cases j with
        | zero => simpa using lt_of_not_le hx
        | succ j2 =>
          rw [List.getD_cons_succ]
          exact hjlt j2 (by omega)

/-- If every cutoff is below the niceness, no iteration of the dispatch loop
returns: the C++ function falls off its end. -/
lemma bestQueueLoop_none_of_gt :
    ∀ (cutoffs : List Rat) (n : Rat), (∀ x ∈ cutoffs, x < n) →
    bestQueueLoop cutoffs n = none := by
  intro cutoffs
  induction cutoffs with
  | nil => intro n _; rfl
  | cons x cs ih =>
    intro n hall
    rw [bestQueueLoop, if_neg (not_le.mpr (hall x (List.mem_cons_self _ _))),
      ih n (fun y hy => hall y (List.mem_cons_of_mem _ hy))]
    rfl

/-- C10: for an inference whose (possibly fade-in-coarsened) niceness lies in
`[0,1]`, `bestQueueHeuristics` returns the smallest index whose cutoff is at
least the niceness — so with last cutoff `1` the fall-through end of the
function is unreachable — while for a niceness exceeding every cutoff no
return statement is executed (the loop yields `none`). -/
theorem best_queue_dispatch (fadeIn : Bool) (c : Clause) (cutoffs : List Rat) :
    (0 ≤ clauseNiceness fadeIn c → clauseNiceness fadeIn c ≤ 1 →
      ∀ h : cutoffs ≠ [], cutoffs.getLast h = 1 →
      ∃ i, bestQueueLoop cutoffs (clauseNiceness fadeIn c) = some i ∧
        i < cutoffs.length ∧ clauseNiceness fadeIn c ≤ cutoffs.getD i 0 ∧
        ∀ j, j < i → cutoffs.getD j 0 < clauseNiceness fadeIn c) ∧
    ((∀ x ∈ cutoffs, x < clauseNiceness fadeIn c) →
      bestQueueLoop cutoffs (clauseNiceness fadeIn c) = none) :=
  ⟨fun _ hn h hlast => bestQueueLoop_some_of_le_last cutoffs _ hn h hlast,
   fun hall => bestQueueLoop_none_of_gt cutoffs _ hall⟩

theorem best_queue_dispatch_witness :
    (∃ i, bestQueueLoop [1/4, 1] (clauseNiceness false ⟨0, 0, [], 0, 0, 1, 2⟩) = some i ∧
      i < 2 ∧ clauseNiceness false ⟨0, 0, [], 0, 0, 1, 2⟩ ≤ [(1 : Rat)/4, 1].getD i 0 ∧
      ∀ j, j < i → [(1 : Rat)/4, 1].getD j 0 < clauseNiceness false ⟨0, 0, [], 0, 0, 1, 2⟩) ∧
    bestQueueLoop [1/4, 1/3] (clauseNiceness false ⟨0, 0, [], 0, 0, 3, 4⟩) = none :=
  ⟨(best_queue_dispatch false ⟨0, 0, [], 0, 0, 1, 2⟩ [1/4, 1]).1
      (by norm_num [clauseNiceness, computeNiceness])
      (by norm_num [clauseNiceness, computeNiceness])
      (by simp) (by rfl),
   (best_queue_dispatch false ⟨0, 0, [], 0, 0, 3, 4⟩ [1/4, 1/3]).2
      (by intro x hx; fin_cases hx <;> norm_num [clauseNiceness, computeNiceness])⟩

/-- `std::min_element` characterisation: `idxOfMin` is in range, indexes a
minimal balance, and every earlier balance is strictly larger (ties are
broken toward the smallest index). -/
lemma idxOfMin_spec :
    ∀ l : List Nat, l ≠ [] →
    (idxOfMin l < l.length ∧
     (∀ j, j < l.length → l.getD (idxOfMin l) 0 ≤ l.getD j 0) ∧
     (∀ j, j < idxOfMin l → l.getD (idxOfMin l) 0 < l.getD j 0)) := by
  intro l
  induction l with
  | nil => intro h; exact absurd rfl h
  | cons b bs ih =>
    intro _
    by_cases hbs : bs = []
    · subst hbs
      rw [idxOfMin, if_pos rfl]
      refine ⟨by simp, ?_, by omega⟩
      intro j hj
      have hj0 : j = 0 := by simp at hj; omega
      subst hj0
      exact le_refl _
    · rcases ih hbs with ⟨ih1, ih2, ih3⟩
      rw [idxOfMin, if_neg hbs]
      by_cases hb : b ≤ bs.getD (idxOfMin bs) 0
      · rw [if_pos hb]
        refine ⟨by simp, ?_, by omega⟩
        intro j hj
        cases j with
        | zero => exact le_refl _
        | succ j2 =>
          rw [List.getD_cons_zero, List.getD_cons_succ]
          exact le_trans hb (ih2 j2 (by simpa using hj))
      · rw [if_neg hb]
        refine ⟨by simpa using ih1, ?_, ?_⟩
        · intro j hj
          cases j with
          | zero =>
            rw [List.getD_cons_zero, List.getD_cons_succ]
            exact le_of_lt (lt_of_not_le hb)
          | succ j2 =>
            rw [List.getD_cons_succ, List.getD_cons_succ]
            exact ih2 j2 (by simpa using hj)
        · intro j hj
          cases j with
          | zero =>
            rw [List.getD_cons_zero, List.getD_cons_succ]
            exact lt_of_not_le hb
          | succ j2 =>
            rw [List.getD_cons_succ, List.getD_cons_succ]
            exact ih3 j2 (by omega)

lemma firstNE_none_iff :
    ∀ qs : List (List Clause), firstNE qs = none ↔ ∀ q ∈ qs, q = [] := by
  intro qs
  induction qs with
  | nil => simp [firstNE]
  | cons q qs ih =>
    rw [firstNE]
    by_cases hq : q.isEmpty
    · rw [if_pos hq]
      have hqnil : q = [] := List.isEmpty_iff.mp hq
      constructor
      · intro h
        have : firstNE qs = none := by
          cases hfe : firstNE qs with
          | none => rfl
          | some k => rw [hfe] at h; exact absurd h (by simp)
        intro x hx
        rcases List.mem_cons.mp hx with rfl | hx2
        · exact hqnil
        · exact ih.mp this x hx2
      · intro h
        rw [ih.mpr (fun x hx => h x (List.mem_cons_of_mem _ hx))]
        rfl
    · rw [if_neg hq]
      constructor
      · intro h; exact absurd h (by simp)
      · intro h
        exact absurd (h q (List.mem_cons_self _ _)) (fun he => hq (by simp [he]))

lemma firstNE_some_spec :
    ∀ (qs : List (List Clause)) (k : Nat), firstNE qs = some k →
    k < qs.length ∧ qs.getD k [] ≠ [] ∧ ∀ j, j < k → qs.getD j [] = [] := by
  intro qs
  induction qs with
  | nil => intro k h; exact absurd h (by simp [firstNE])
  | cons q qs ih =>
    intro k h
    rw [firstNE] at h
    by_cases hq : q.isEmpty
    · rw [if_pos hq] at h
      have hqnil : q = [] := List.isEmpty_iff.mp hq
      cases hfe : firstNE qs with
      | none => rw [hfe] at h; exact absurd h (by simp)
      | some k2 =>
        rw [hfe] at h
        have h2 : some (k2 + 1) = some k := h
        have hk : k = k2 + 1 := (Option.some.inj h2).symm
        subst hk
        rcases ih k2 hfe with ⟨ih1, ih2, ih3⟩
        refine ⟨by simpa using ih1, by simpa using ih2, ?_⟩
        intro j hj
        cases j with
        | zero => simpa using hqnil
        | succ j2 =>
          rw [List.getD_cons_succ]
          exact ih3 j2 (by omega)
    · rw [if_neg hq] at h
      have hk : k = 0 := (Option.some.inj h).symm
      subst hk
      refine ⟨by simp, ?_, by omega⟩
      rw [List.getD_cons_zero]
      exact fun he => hq (by simp [he])

/-- `getD` through `List.drop`. -/
lemma getD_drop (qs : List (List Clause)) (i d : Nat) (hd : d < (qs.drop i).length) :
    (qs.drop i).getD d [] = qs.getD (i + d) [] := by
  have hlen : i + d < qs.length := by
    rw [List.length_drop] at hd; omega
  have h1 : (qs.drop i)[d]? = qs[i + d]? := List.getElem?_drop qs i d
  rw [List.getElem?_eq_getElem hd, List.getElem?_eq_getElem hlen] at h1
  rw [List.getD_eq_getElem _ _ hd, List.getD_eq_getElem _ _ hlen]
  exact Option.some.inj h1

/-- Out-of-range `getD` yields the default. -/
lemma getD_default (qs : List (List Clause)) (k : Nat) (h : qs.getD k [] ≠ []) :
    k < qs.length := by
  by_contra hk
  exact h (List.getD_eq_default _ _ (by omega))

lemma scanRight_some_spec (qs : List (List Clause)) (i k : Nat)
    (h : scanRight qs i = some k) :
    i ≤ k ∧ k < qs.length ∧ qs.getD k [] ≠ [] ∧
    ∀ j, i ≤ j → j < k → qs.getD j [] = [] := by
  rw [scanRight] at h
  cases hfe : firstNE (qs.drop i) with
  | none => rw [hfe] at h; exact absurd h (by simp)
  | some d =>
    rw [hfe] at h
    have hk : k = i + d := (Option.some.inj h).symm
    subst hk
    rcases firstNE_some_spec _ d hfe with ⟨h1, h2, h3⟩
    have hlen : i + d < qs.length := by
      rw [List.length_drop] at h1; omega
    refine ⟨by omega, hlen, by rwa [← getD_drop qs i d h1], ?_⟩
    intro j hij hjk
    have hjd : j - i < (qs.drop i).length := by
      rw [List.length_drop]; omega
    have := h3 (j - i) (by omega)
    rw [getD_drop qs i (j - i) hjd] at this
    rwa [Nat.add_sub_cancel' hij] at this

lemma scanRight_none_iff (qs : List (List Clause)) (i : Nat) :
    scanRight qs i = none ↔ ∀ j, i ≤ j → j < qs.length → qs.getD j [] = [] := by
  rw [scanRight]
  have hmapnone : (firstNE (qs.drop i)).map (i + ·) = none ↔
      firstNE (qs.drop i) = none := by
    cases firstNE (qs.drop i) <;> simp
  rw [hmapnone, firstNE_none_iff]
  constructor
  · intro hall j hij hjl
    have hd : j - i < (qs.drop i).length := by
      rw [List.length_drop]; omega
    have hmem : (qs.drop i).getD (j - i) [] ∈ qs.drop i := by
      rw [List.getD_eq_getElem _ _ hd]
      exact List.getElem_mem hd
    have := hall _ hmem
    rw [getD_drop qs i (j - i) hd, Nat.add_sub_cancel' hij] at this
    exact this
  · intro hall q hq
    rcases List.mem_iff_getElem.mp hq with ⟨d, hd, hdq⟩
    have hlen : i + d < qs.length := by
      rw [List.length_drop] at hd; omega
    have := hall (i + d) (by omega) hlen
    rw [← getD_drop qs i d hd, List.getD_eq_getElem _ _ hd, hdq] at this
    exact this

lemma scanLeft_some_spec (qs : List (List Clause)) :
    ∀ (i k : Nat), scanLeft qs i = some k →
    k ≤ i ∧ qs.getD k [] ≠ [] ∧ ∀ j, k < j → j ≤ i → qs.getD j [] = [] := by
  intro i
  induction i with
  | zero =>
    intro k h
    rw [scanLeft] at h
    by_cases hq : (qs.getD 0 []).isEmpty
    · rw [if_pos hq] at h; exact absurd h (by simp)
    · rw [if_neg hq] at h
      have hk : k = 0 := (Option.some.inj h).symm
      subst hk
      exact ⟨le_refl _, fun he => hq (by rw [he]; rfl), by omega⟩
  | succ i2 ih =>
    intro k h
    rw [scanLeft] at h
    by_cases hq : (qs.getD (i2 + 1) []).isEmpty
    · rw [if_pos hq] at h
      rcases ih k h with ⟨h1, h2, h3⟩
      refine ⟨by omega, h2, ?_⟩
      intro j hkj hji
      by_cases hji2 : j ≤ i2
      · exact h3 j hkj hji2
      · have : j = i2 + 1 := by omega
        subst this
        exact List.isEmpty_iff.mp hq
    · rw [if_neg hq] at h
      have hk : k = i2 + 1 := (Option.some.inj h).symm
      subst hk
      exact ⟨le_refl _, fun he => hq (by rw [he]; rfl), by omega⟩

/-- C2: `popSelected` follows the specified weighted round-robin.  Part one:
the constructor's internal weights are `lcm(r_1, …, r_N) / r_i`.  Part two:
on a successful `popSelected`, the queue `q` whose balance is minimal (first
minimum, so ties go to the smallest index) is charged its internal weight;
the clause comes from the head of the first non-empty queue at or to the
right of `q`, or — only when every queue from `q` rightward is empty — from
the first non-empty queue leftward of `q`; the popped clause is removed from
every queue and a `selected` event is fired. -/
theorem weighted_round_robin :
    (∀ (rs : List Int) (cs : List Rat) (cfg : PSConfig),
      mkContainer rs cs = Except.ok cfg →
      cfg.ratios = (rs.map Int.toNat).map
        (fun r => ((rs.map Int.toNat).foldl Nat.lcm 1) / r)) ∧
    (∀ (s : PSState) (c : Clause) (s2 : PSState),
      s.balances.length = s.queues.length →
      psPop s = some (c, s2) →
      idxOfMin s.balances < s.balances.length ∧
      (∀ j, j < s.balances.length →
        s.balances.getD (idxOfMin s.balances) 0 ≤ s.balances.getD j 0) ∧
      (∀ j, j < idxOfMin s.balances →
        s.balances.getD (idxOfMin s.balances) 0 < s.balances.getD j 0) ∧
      s2.balances = s.balances.set (idxOfMin s.balances)
        (s.balances.getD (idxOfMin s.balances) 0 +
          s.ratios.getD (idxOfMin s.balances) 0) ∧
      (∃ k, k < s.queues.length ∧ s.queues.getD k [] ≠ [] ∧
        (s.queues.getD k []).head? = some c ∧
        ((∃ i, idxOfMin s.balances ≤ i ∧ i < s.queues.length ∧
            s.queues.getD i [] ≠ []) →
          idxOfMin s.balances ≤ k ∧
          ∀ j, idxOfMin s.balances ≤ j → j < k → s.queues.getD j [] = []) ∧
        ((∀ i, idxOfMin s.balances ≤ i → i < s.queues.length →
            s.queues.getD i [] = []) →
          k < idxOfMin s.balances ∧
          ∀ j, k < j → j ≤ idxOfMin s.balances → s.queues.getD j [] = [])) ∧
      s2.queues = s.queues.map (fun ql => ql.erase c) ∧
      s2.events = ClEvent.selected c :: s.events) := by
  constructor
  · intro rs cs cfg h
    rw [mkContainer] at h
    by_cases h2 : rs.length < 2
    · rw [if_pos h2] at h; exact absurd h (by simp)
    · rw [if_neg h2] at h
      by_cases hlen : rs.length ≠ cs.length
      · rw [if_pos hlen] at h; exact absurd h (by simp)
      · rw [if_neg hlen] at h
        cases hchk : checkEntries rs cs none with
        | error e => rw [hchk] at h; exact absurd h (by simp)
        | ok u =>
          cases u
          rw [hchk] at h
          by_cases hlast : cs.getLast? ≠ some 1
          · rw [if_pos hlast] at h; exact absurd h (by simp)
          · rw [if_neg hlast] at h
            have hcfg := Except.ok.inj h
            have hlcm : (rs.map Int.toNat).foldl computeLCM 1 =
                (rs.map Int.toNat).foldl Nat.lcm 1 := by
              have : computeLCM = Nat.lcm := by
                funext a b
                exact computeLCM_eq_lcm a b
              rw [this]
            rw [← hcfg]
            simp only [hlcm]
  · intro s c s2 hblen hp
    rw [psPop] at hp
    split at hp
    · exact absurd hp (by simp)
    · rename_i k hcq
      split at hp
      · exact absurd hp (by simp)
      · rename_i c2 hhd
        have hpair := Option.some.inj hp
        have hc2 : c2 = c := congrArg Prod.fst hpair
        subst hc2
        have hs2 : s2 = { s with
            balances := s.balances.set (idxOfMin s.balances)
              (s.balances.getD (idxOfMin s.balances) 0 +
                s.ratios.getD (idxOfMin s.balances) 0),
            queues := s.queues.map (fun ql => ql.erase c2),
            events := ClEvent.selected c2 :: s.events } :=
          (congrArg Prod.snd hpair).symm
        have hkne : s.queues.getD k [] ≠ [] := by
          intro hnil
          rw [hnil] at hhd
          exact absurd hhd (by simp)
        have hklen : k < s.queues.length := getD_default _ _ hkne
        have hqne : s.balances ≠ [] := by
          intro hnil
          rw [hnil] at hblen
          have : s.queues.length = 0 := hblen.symm
          omega
        rcases idxOfMin_spec s.balances hqne with ⟨hmin1, hmin2, hmin3⟩
        refine ⟨hmin1, hmin2, hmin3, by rw [hs2], ?_, by rw [hs2], by rw [hs2]⟩
        refine ⟨k, hklen, hkne, hhd, ?_, ?_⟩
        · intro hex
          rw [chooseQueue] at hcq
          cases hsr : scanRight s.queues (idxOfMin s.balances) with
          | some k2 =>
            rw [hsr] at hcq
            have hkk : k2 = k := Option.some.inj hcq
            subst hkk
            rcases scanRight_some_spec _ _ _ hsr with ⟨ha, -, -, hd⟩
            exact ⟨ha, hd⟩
          | none =>
            rcases hex with ⟨i, hi1, hi2, hi3⟩
            exact absurd ((scanRight_none_iff _ _).mp hsr i hi1 hi2) hi3
        · intro hall
          rw [chooseQueue] at hcq
          cases hsr : scanRight s.queues (idxOfMin s.balances) with
          | some k2 =>
            rcases scanRight_some_spec _ _ _ hsr with ⟨ha, hb, hc, -⟩
            exact absurd (hall k2 ha hb) hc
          | none =>
            rw [hsr] at hcq
            by_cases hq0 : idxOfMin s.balances = 0
            · rw [if_pos hq0] at hcq
              exact absurd hcq (by simp)
            · rw [if_neg hq0] at hcq
              rcases scanLeft_some_spec s.queues _ _ hcq with ⟨h1, -, h3⟩
              have hminlen : idxOfMin s.balances < s.queues.length := by
                rw [← hblen]; exact hmin1
              refine ⟨by omega, ?_⟩
              intro j hkj hjq
              by_cases hjlt : j ≤ idxOfMin s.balances - 1
              · exact h3 j hkj hjlt
              · have hjq2 : j = idxOfMin s.balances := by omega
                rw [hjq2]
                exact hall _ (le_refl _) hminlen

/-- Two sample clauses used for the concrete checks below. -/
def cA : Clause := ⟨1, 0, [1], 0, 1, 0, 1⟩

def cB : Clause := ⟨2, 0, [2], 0, 2, 0, 1⟩

/-- A small two-queue split container: `cA` sits in both queues, `cB` only in
the last. -/
def sW : PSState :=
  { queues := [[cA], [cA, cB]], simRem := [], ageAdm := [], wAdm := [],
    ratios := [1, 4], cutoffs := [1/2, 1], balances := [0, 0], simBalances := [],
    fadeIn := false, isOutermost := true, events := [] }

/-- The state after one `popSelected` on `sW`. -/
def sPopW : PSState :=
  { sW with
    balances := [1, 0]
    queues := [[], [cB]]
    events := [ClEvent.selected cA] }

theorem weighted_round_robin_witness :
    (mkContainer [2, 3] [1/2, 1] = Except.ok ⟨[3, 2], [1/2, 1]⟩ ∧
      (⟨[3, 2], [1/2, 1]⟩ : PSConfig).ratios = ([2, 3].map Int.toNat).map
        (fun r => (([2, 3].map Int.toNat).foldl Nat.lcm 1) / r)) ∧
    (sW.balances.length = sW.queues.length ∧
      psPop sW = some (cA, sPopW) ∧
      sPopW.balances = sW.balances.set (idxOfMin sW.balances)
        (sW.balances.getD (idxOfMin sW.balances) 0 +
          sW.ratios.getD (idxOfMin sW.balances) 0) ∧
      sPopW.queues = sW.queues.map (fun ql => ql.erase cA) ∧
      sPopW.events = ClEvent.selected cA :: sW.events) := by
  have hmk : mkContainer [2, 3] [1/2, 1] = Except.ok ⟨[3, 2], [1/2, 1]⟩ := by
    have hchk : checkEntries [2, 3] [1/2, 1] none = Except.ok () := by
      rw [checkEntries]
      rw [if_neg (by norm_num), if_neg (by norm_num),
        if_neg (by norm_num [cutoffNotIncreasing])]
      rw [checkEntries]
      rw [if_neg (by norm_num), if_neg (by norm_num),
        if_neg (by norm_num [cutoffNotIncreasing])]
      rw [checkEntries]
    have hlcm : ([2, 3].map Int.toNat).foldl computeLCM 1 = 6 := by
      simp [computeLCM, computeGCD]
    rw [mkContainer, if_neg (by norm_num), if_neg (by norm_num), hchk]
    rw [if_neg (by norm_num)]
    simp only [hlcm]
    norm_num
    exact ⟨by decide, by decide⟩
  have h1 := weighted_round_robin.1 [2, 3] [1/2, 1] ⟨[3, 2], [1/2, 1]⟩ hmk
  have h2 := weighted_round_robin.2 sW cA sPopW rfl rfl
  exact ⟨⟨hmk, h1⟩, rfl, rfl, h2.2.2.2.1, h2.2.2.2.2.2.1, h2.2.2.2.2.2.2⟩

/-- `getD` through `mapIdx` at an in-range index. -/
lemma getD_mapIdx (f : Nat → List Clause → List Clause) (l : List (List Clause))
    (j : Nat) (hj : j < l.length) :
    (l.mapIdx f).getD j [] = f j (l.getD j []) := by
  rw [List.getD_eq_getElem _ _ (by rw [List.length_mapIdx]; exact hj),
    List.getD_eq_getElem _ _ hj, List.getElem_mapIdx]

/-- `getD` through the whole-container erase of `popSelected`. -/
lemma getD_map_erase (l : List (List Clause)) (c : Clause) (j : Nat) :
    (l.map (fun ql => ql.erase c)).getD j [] = (l.getD j []).erase c := by
  by_cases hj : j < l.length
  · rw [List.getD_eq_getElem _ _ (by simpa using hj), List.getD_eq_getElem _ _ hj,
      List.getElem_map]
  · rw [List.getD_eq_default _ _ (by simp at hj ⊢; omega),
      List.getD_eq_default _ _ (by omega)]
    rfl

/-- Inversion of a successful `popSelected`: the resulting state. -/
lemma psPop_eq (s : PSState) (c : Clause) (s2 : PSState)
    (hp : psPop s = some (c, s2)) :
    s2 = { s with
      balances := s.balances.set (idxOfMin s.balances)
        (s.balances.getD (idxOfMin s.balances) 0 +
          s.ratios.getD (idxOfMin s.balances) 0),
      queues := s.queues.map (fun ql => ql.erase c),
      events := ClEvent.selected c :: s.events } := by
  rw [psPop] at hp
  split at hp
  · exact absurd hp (by simp)
  · split at hp
    · exact absurd hp (by simp)
    · rename_i c2 hhd
      have hpair := Option.some.inj hp
      have hc2 : c2 = c := congrArg Prod.fst hpair
      subst hc2
      exact (congrArg Prod.snd hpair).symm

/-- The split-container states reachable by the container's own operations
from a freshly constructed container: `add` of a clause not currently
contained (per the spec, a clause is in at most one container) whose niceness
satisfies the source's `ASS(0.0 <= niceness && niceness <= 1.0)`, `remove`,
and a successful `popSelected`.  The constructor's cutoffs end in `1`
(`ASS(_cutoffs.back() == 1.0)`), one inner queue and one zero balance being
created per cutoff. -/
inductive PSReachable : PSState → Prop where
  | init (aA wA : List (Clause → Bool)) (rat : List Nat) (cut : List Rat)
      (fi oo : Bool) (hne : cut ≠ []) (hlast : cut.getLast hne = 1) :
      PSReachable
        { queues := List.replicate cut.length [],
          simRem := List.replicate cut.length [],
          ageAdm := aA, wAdm := wA, ratios := rat, cutoffs := cut,
          balances := List.replicate cut.length 0, simBalances := [],
          fadeIn := fi, isOutermost := oo, events := [] }
  | add (s : PSState) (c : Clause) (hs : PSReachable s)
      (hfresh : ∀ q ∈ s.queues, c ∉ q)
      (hnice : clauseNiceness s.fadeIn c ≤ 1) :
      PSReachable (psAdd c s)
  | remove (s : PSState) (c : Clause) (hs : PSReachable s) :
      PSReachable (psRemove c s)
  | pop (s : PSState) (c : Clause) (s2 : PSState) (hs : PSReachable s)
      (hp : psPop s = some (c, s2)) : PSReachable s2

/-- The storage invariant of the split container: queues parallel the
cutoffs, every queue is duplicate-free, no clause sits left of its best
queue, and every contained clause sits in every queue from its best queue
through the last (split-queue coverage). -/
def PSInv (s : PSState) : Prop :=
  s.queues.length = s.cutoffs.length ∧
  (∀ q ∈ s.queues, q.Nodup) ∧
  (∀ (c : Clause) (j : Nat), j < bestQueue s.cutoffs s.fadeIn c →
    c ∉ s.queues.getD j []) ∧
  (∀ c : Clause, (∃ m, m < s.queues.length ∧ c ∈ s.queues.getD m []) →
    ∀ j, bestQueue s.cutoffs s.fadeIn c ≤ j → j < s.queues.length →
    c ∈ s.queues.getD j [])

lemma psReachable_inv (s : PSState) (hs : PSReachable s) : PSInv s := by
  induction hs with
  | init aA wA rat cut fi oo hne hlast =>
    have hrep : ∀ j : Nat, (List.replicate cut.length ([] : List Clause)).getD j [] = [] := by
      intro j
      by_cases hj : j < cut.length
      · rw [List.getD_eq_getElem _ _ (by simpa using hj)]
        simp
      · exact List.getD_eq_default _ _ (by simpa using hj)
    refine ⟨by simp, ?_, ?_, ?_⟩
    · intro q hq
      rw [List.eq_of_mem_replicate hq]
      exact List.nodup_nil
    · intro c j _
      rw [hrep j]
      exact List.not_mem_nil c
    · rintro c ⟨m, -, hcm⟩
      rw [hrep m] at hcm
      exact absurd hcm (List.not_mem_nil c)
  | add s c hs hfresh hnice ih =>
    rcases ih with ⟨ih1, ih2, ih3, ih4⟩
    have hq : (psAdd c s).queues = s.queues.mapIdx
        (fun j q => if bestQueue s.cutoffs s.fadeIn c ≤ j then q ++ [c] else q) := rfl
    have hcut : (psAdd c s).cutoffs = s.cutoffs := rfl
    have hfi : (psAdd c s).fadeIn = s.fadeIn := rfl
    have hlen : (psAdd c s).queues.length = s.queues.length := by
      rw [hq, List.length_mapIdx]
    have hget : ∀ j, j < s.queues.length → (psAdd c s).queues.getD j [] =
        if bestQueue s.cutoffs s.fadeIn c ≤ j then s.queues.getD j [] ++ [c]
        else s.queues.getD j [] := by
      intro j hj
      rw [hq, getD_mapIdx _ _ _ hj]
    refine ⟨by rw [hlen, hcut]; exact ih1, ?_, ?_, ?_⟩
    · intro q hq2
      rw [hq] at hq2
      rcases List.mem_iff_getElem.mp hq2 with ⟨j, hj, hjq⟩
      rw [List.getElem_mapIdx] at hjq
      have hjl : j < s.queues.length := by
        rw [List.length_mapIdx] at hj; exact hj
      have hmem : s.queues[j] ∈ s.queues := List.getElem_mem hjl
      rw [← hjq]
      by_cases hb : bestQueue s.cutoffs s.fadeIn c ≤ j
      · rw [if_pos hb]
        rw [List.nodup_append]
        exact ⟨ih2 _ hmem, List.nodup_singleton c,
          fun a ha hac => (List.mem_singleton.mp hac ▸ hfresh _ hmem) ha⟩
      · rw [if_neg hb]
        exact ih2 _ hmem
    · intro d j hj
      rw [hcut, hfi] at hj
      by_cases hjl : j < s.queues.length
      · rw [hget j hjl]
        by_cases hb : bestQueue s.cutoffs s.fadeIn c ≤ j
        · rw [if_pos hb]
          intro hmem
          rcases List.mem_append.mp hmem with hdq | hdc
          · by_cases hdc2 : d = c
            · subst hdc2
              exact hfresh _ (by
                rw [List.getD_eq_getElem _ _ hjl]
                exact List.getElem_mem hjl) hdq
            · exact ih3 d j hj hdq
          · have hdc2 : d = c := List.mem_singleton.mp hdc
            subst hdc2
            -- j < bestQueue d yet bestQueue d ≤ j
            omega
        · rw [if_neg hb]
          intro hmem
          by_cases hdc2 : d = c
          · subst hdc2
            exact hfresh _ (by
              rw [List.getD_eq_getElem _ _ hjl]
              exact List.getElem_mem hjl) hmem
          · exact ih3 d j hj hmem
      · rw [List.getD_eq_default _ _ (by omega)]
        exact List.not_mem_nil d
    · rintro d ⟨m, hm, hdm⟩ j hj1 hj2
      rw [hcut, hfi] at hj1
      rw [hlen] at hj2 hm
      by_cases hdc : d = c
      · subst hdc
        rw [hget j hj2, if_pos hj1]
        exact List.mem_append.mpr (Or.inr (List.mem_singleton.mpr rfl))
      · have hdm2 : d ∈ s.queues.getD m [] := by
          rw [hget m hm] at hdm
          by_cases hb : bestQueue s.cutoffs s.fadeIn c ≤ m
          · rw [if_pos hb] at hdm
            rcases List.mem_append.mp hdm with h | h
            · exact h
            · exact absurd (List.mem_singleton.mp h) hdc
          · rwa [if_neg hb] at hdm
        have hcov := ih4 d ⟨m, hm, hdm2⟩ j hj1 hj2
        rw [hget j hj2]
        by_cases hb : bestQueue s.cutoffs s.fadeIn c ≤ j
        · rw [if_pos hb]
          exact List.mem_append.mpr (Or.inl hcov)
        · rwa [if_neg hb]
  | remove s c hs ih =>
    rcases ih with ⟨ih1, ih2, ih3, ih4⟩
    have hq : (psRemove c s).queues = s.queues.mapIdx
        (fun j q => if bestQueue s.cutoffs s.fadeIn c ≤ j then q.erase c else q) := rfl
    have hcut : (psRemove c s).cutoffs = s.cutoffs := rfl
    have hfi : (psRemove c s).fadeIn = s.fadeIn := rfl
    have hlen : (psRemove c s).queues.length = s.queues.length := by
      rw [hq, List.length_mapIdx]
    have hget : ∀ j, j < s.queues.length → (psRemove c s).queues.getD j [] =
        if bestQueue s.cutoffs s.fadeIn c ≤ j then (s.queues.getD j []).erase c
        else s.queues.getD j [] := by
      intro j hj
      rw [hq, getD_mapIdx _ _ _ hj]
    have hsub : ∀ j, j < s.queues.length →
        ∀ d, d ∈ (psRemove c s).queues.getD j [] → d ∈ s.queues.getD j [] := by
      intro j hj d hd
      rw [hget j hj] at hd
      by_cases hb : bestQueue s.cutoffs s.fadeIn c ≤ j
      · rw [if_pos hb] at hd
        exact List.erase_subset _ _ hd
      · rwa [if_neg hb] at hd
    refine ⟨by rw [hlen, hcut]; exact ih1, ?_, ?_, ?_⟩
    · intro q hq2
      rw [hq] at hq2
      rcases List.mem_iff_getElem.mp hq2 with ⟨j, hj, hjq⟩
      rw [List.getElem_mapIdx] at hjq
      have hjl : j < s.queues.length := by
        rw [List.length_mapIdx] at hj; exact hj
      have hmem : s.queues[j] ∈ s.queues := List.getElem_mem hjl
      rw [← hjq]
      by_cases hb : bestQueue s.cutoffs s.fadeIn c ≤ j
      · rw [if_pos hb]
        exact (ih2 _ hmem).erase c
      · rw [if_neg hb]
        exact ih2 _ hmem
    · intro d j hj
      rw [hcut, hfi] at hj
      by_cases hjl : j < s.queues.length
      · intro hmem
        exact ih3 d j hj (hsub j hjl d hmem)
      · rw [List.getD_eq_default _ _ (by omega)]
        exact List.not_mem_nil d
    · rintro d ⟨m, hm, hdm⟩ j hj1 hj2
      rw [hcut, hfi] at hj1
      rw [hlen] at hj2 hm
      by_cases hdc : d = c
      · subst hdc
        exfalso
        rw [hget m hm] at hdm
        by_cases hb : bestQueue s.cutoffs s.fadeIn d ≤ m
        · rw [if_pos hb] at hdm
          have hnd : (s.queues.getD m []).Nodup := by
            rw [List.getD_eq_getElem _ _ hm]
            exact ih2 _ (List.getElem_mem hm)
          exact ((hnd.mem_erase_iff).mp hdm).1 rfl
        · rw [if_neg hb] at hdm
          exact ih3 d m (by omega) hdm
      · have hdm2 : d ∈ s.queues.getD m [] := hsub m hm d hdm
        have := ih4 d ⟨m, hm, hdm2⟩ j hj1 hj2
        rw [hget j hj2]
        by_cases hb : bestQueue s.cutoffs s.fadeIn c ≤ j
        · rw [if_pos hb]
          have hnd : (s.queues.getD j []).Nodup := by
            rw [List.getD_eq_getElem _ _ hj2]
            exact ih2 _ (List.getElem_mem hj2)
          exact (hnd.mem_erase_iff).mpr ⟨hdc, this⟩
        · rwa [if_neg hb]
  | pop s c s2 hs hp ih =>
    rcases ih with ⟨ih1, ih2, ih3, ih4⟩
    have hs2 := psPop_eq s c s2 hp
    have hq : s2.queues = s.queues.map (fun ql => ql.erase c) := by rw [hs2]
    have hcut : s2.cutoffs = s.cutoffs := by rw [hs2]
    have hfi : s2.fadeIn = s.fadeIn := by rw [hs2]
    have hlen : s2.queues.length = s.queues.length := by
      rw [hq, List.length_map]
    have hget : ∀ j, s2.queues.getD j [] = (s.queues.getD j []).erase c := by
      intro j
      rw [hq, getD_map_erase]
    refine ⟨by rw [hlen, hcut]; exact ih1, ?_, ?_, ?_⟩
    · intro q hq2
      rw [hq] at hq2
      rcases List.mem_map.mp hq2 with ⟨ql, hql, hqe⟩
      rw [← hqe]
      exact (ih2 _ hql).erase c
    · intro d j hj
      rw [hcut, hfi] at hj
      rw [hget j]
      intro hmem
      exact ih3 d j hj (List.erase_subset _ _ hmem)
    · rintro d ⟨m, hm, hdm⟩ j hj1 hj2
      rw [hcut, hfi] at hj1
      rw [hlen] at hj2 hm
      rw [hget m] at hdm
      by_cases hdc : d = c
      · subst hdc
        exfalso
        have hnd : (s.queues.getD m []).Nodup := by
          rw [List.getD_eq_getElem _ _ hm]
          exact ih2 _ (List.getElem_mem hm)
        exact ((hnd.mem_erase_iff).mp hdm).1 rfl
      · have hdm2 : d ∈ s.queues.getD m [] := List.erase_subset _ _ hdm
        have := ih4 d ⟨m, hm, hdm2⟩ j hj1 hj2
        rw [hget j]
        have hnd : (s.queues.getD j []).Nodup := by
          rw [List.getD_eq_getElem _ _ hj2]
          exact ih2 _ (List.getElem_mem hj2)
        exact (hnd.mem_erase_iff).mpr ⟨hdc, this⟩

/-- C3: `add` inserts a clause into exactly the queues from its best queue
through the last (queues left of it are untouched); in any reachable state
every contained clause is a member of every queue from its best queue through
the last (absent LRS discard, which is not among the container operations);
and `remove` deletes the clause from the same range of queues, leaving other
clauses alone. -/
theorem split_queue_storage (s : PSState) (hs : PSReachable s) :
    (∀ c : Clause, (∃ m, m < s.queues.length ∧ c ∈ s.queues.getD m []) →
      ∀ j, bestQueue s.cutoffs s.fadeIn c ≤ j → j < s.queues.length →
      c ∈ s.queues.getD j []) ∧
    (∀ (c : Clause) (j : Nat), j < s.queues.length →
      ((bestQueue s.cutoffs s.fadeIn c ≤ j →
        c ∈ (psAdd c s).queues.getD j []) ∧
       (j < bestQueue s.cutoffs s.fadeIn c →
        (psAdd c s).queues.getD j [] = s.queues.getD j []))) ∧
    (∀ (c : Clause) (j : Nat), j < s.queues.length →
      ((bestQueue s.cutoffs s.fadeIn c ≤ j →
        c ∉ (psRemove c s).queues.getD j []) ∧
       (j < bestQueue s.cutoffs s.fadeIn c →
        (psRemove c s).queues.getD j [] = s.queues.getD j []) ∧
       (∀ d : Clause, d ≠ c →
        (d ∈ (psRemove c s).queues.getD j [] ↔ d ∈ s.queues.getD j [])))) := by
  rcases psReachable_inv s hs with ⟨-, inv2, -, inv4⟩
  have hgetA : ∀ (c : Clause) (j : Nat), j < s.queues.length →
      (psAdd c s).queues.getD j [] =
      if bestQueue s.cutoffs s.fadeIn c ≤ j then s.queues.getD j [] ++ [c]
      else s.queues.getD j [] := by
    intro c j hj
    exact getD_mapIdx _ _ _ hj
  have hgetR : ∀ (c : Clause) (j : Nat), j < s.queues.length →
      (psRemove c s).queues.getD j [] =
      if bestQueue s.cutoffs s.fadeIn c ≤ j then (s.queues.getD j []).erase c
      else s.queues.getD j [] := by
    intro c j hj
    exact getD_mapIdx _ _ _ hj
  refine ⟨inv4, ?_, ?_⟩
  · intro c j hj
    rw [hgetA c j hj]
    constructor
    · intro hb
      rw [if_pos hb]
      exact List.mem_append.mpr (Or.inr (List.mem_singleton.mpr rfl))
    · intro hb
      rw [if_neg (by omega)]
  · intro c j hj
    have hnd : (s.queues.getD j []).Nodup := by
      rw [List.getD_eq_getElem _ _ hj]
      exact inv2 _ (List.getElem_mem hj)
    rw [hgetR c j hj]
    refine ⟨?_, ?_, ?_⟩
    · intro hb
      rw [if_pos hb]
      intro hmem
      exact ((hnd.mem_erase_iff).mp hmem).1 rfl
    · intro hb
      rw [if_neg (by omega)]
    · intro d hdc
      by_cases hb : bestQueue s.cutoffs s.fadeIn c ≤ j
      · rw [if_pos hb]
        exact ⟨fun h => ((hnd.mem_erase_iff).mp h).2,
          fun h => (hnd.mem_erase_iff).mpr ⟨hdc, h⟩⟩
      · rw [if_neg hb]

/-- The freshly constructed two-queue container used in the concrete
checks. -/
def initW : PSState :=
  { queues := [[], []], simRem := [[], []], ageAdm := [], wAdm := [],
    ratios := [], cutoffs := [1/2, 1], balances := [0, 0], simBalances := [],
    fadeIn := false, isOutermost := true, events := [] }

theorem split_queue_storage_witness :
    PSReachable initW ∧
    (bestQueue initW.cutoffs initW.fadeIn cA ≤ 1 →
      cA ∈ (psAdd cA initW).queues.getD 1 []) ∧
    (bestQueue initW.cutoffs initW.fadeIn cA ≤ 1 →
      cA ∉ (psRemove cA initW).queues.getD 1 []) := by
  have hreach : PSReachable initW :=
    PSReachable.init [] [] [] [1/2, 1] false true (by simp) rfl
  have h := split_queue_storage initW hreach
  exact ⟨hreach, (h.2.1 cA 1 (by decide)).1, (h.2.2 cA 1 (by decide)).1⟩

/-- A sample Active clause above the age limit used below: age `5`, literal
weights `[3, 2]`, one selected literal, effective weight `9`. -/
def cW1 : Clause := ⟨10, 5, [3, 2], 1, 9, 0, 1⟩

/-- A sample index enumeration for the discard pass. -/
def gisW : List Clause := [cW1, ⟨11, 3, [1], 1, 1, 0, 1⟩]

theorem active_discard_exact_witness :
    (∀ a ∈ gisW, ∀ b ∈ gisW, a.id = b.id → a = b) ∧
    ((cW1 ∈ lrsRemoved 4 7 gisW ↔
      cW1 ∈ gisW ∧ ((4 < cW1.age ∧ 7 < cW1.effWeight) ∨
        (cW1.age = 4 ∧ 7 ≤ cW1.weight - cW1.maxSelWeight))) ∧
     (cW1.age < 4 → cW1 ∉ lrsRemoved 4 7 gisW)) :=
  ⟨by decide, active_discard_exact 4 7 gisW (by decide) cW1⟩

/-- A sample operation sequence on the Unprocessed container: two adds. -/
def opsW : List UOp := [UOp.add cA, UOp.add cB]

theorem unprocessed_pop_last_witness :
    (uRun opsW).data.Sublist (addsOf opsW) ∧
    (uRun opsW).data ≠ [] ∧
    uPop (uRun opsW) = some (cB,
      { data := [cA], events := ClEvent.selected cB :: (uRun opsW).events }) := by
  have h := (unprocessed_pop_last opsW).2 (by decide)
  exact ⟨(unprocessed_pop_last opsW).1, by decide, h.trans (by rfl)⟩

end VampireSpec
